import Mathlib

/-!
Verification of the tensorflow-examples repository against its specification.

The repository has two scripts:
  * `nmt_with_attention.py` — a sequence-to-sequence translation model with
    Bahdanau attention (preprocessing, encoder/decoder, masked loss,
    training loop, greedy decoding);
  * `dcgan.py` — a DCGAN training loop with per-epoch image artifacts,
    periodic checkpointing, and a final GIF assembly pass.

We embed the relevant functions shallowly: strings become `List Char`,
tensors of token ids become `List ℤ`, per-token losses become `List ℚ`
(exact arithmetic in place of floating point), real-valued attention math
uses `ℝ`, and the training loops become explicit event traces.  Learned
layers (embeddings, GRU, dense layers, the loss object) are parameters of
the embedded functions, exactly as they are opaque callables in the scripts.
-/

namespace TFExamples

/-! ## String preprocessing (`preprocess_sentence` in nmt_with_attention.py) -/

/-- Python whitespace characters stripped by `str.strip()` (ASCII subset). -/
def isPySpace (c : Char) : Bool :=
  c = ' ' || c = '\t' || c = '\n' || c = '\x0d' || c = '\x0b' || c = '\x0c'

/-- Python `str.rstrip()` with default whitespace. -/
def rstripPy (s : List Char) : List Char :=
  (s.reverse.dropWhile isPySpace).reverse

/-- Python `str.strip()` with default whitespace. -/
def stripPy (s : List Char) : List Char :=
  rstripPy (s.dropWhile isPySpace)

/-- NFD decomposition of a single character.  On the ASCII range (the only
characters occurring in the claims' inputs) NFD is the identity, each
character decomposing to itself. -/
def nfdChar (c : Char) : List Char := [c]

/-- Whether a character has Unicode category Mn (nonspacing mark).  No ASCII
character is a nonspacing mark. -/
def categoryMn (c : Char) : Bool :=
  if c.toNat < 128 then false else false

/-- `unicode_to_ascii`: NFD-normalize and drop category-Mn characters. -/
def unicode_to_ascii (s : List Char) : List Char :=
  ((s.map nfdChar).flatten).filter (fun c => !(categoryMn c))

/-- The punctuation class `[?.!,¿]` of the first regex substitution. -/
def isSepPunct (c : Char) : Bool :=
  c = '?' || c = '.' || c = '!' || c = ',' || c = '¿'

/-- `re.sub(r"([?.!,¿])", r" \1 ", w)`: put a space on both sides of each
punctuation character. -/
def spacePunct : List Char → List Char
  | [] => []
  | c :: cs =>
    if isSepPunct c then ' ' :: c :: ' ' :: spacePunct cs
    else c :: spacePunct cs

/-- Helper for `collapseRuns`: `inRun` records whether the previous character
belonged to a run matched by `p` (whose single replacement space was already
emitted). -/
def collapseRunsAux (p : Char → Bool) : Bool → List Char → List Char
  | _, [] => []
  | inRun, c :: cs =>
    if p c then
      (if inRun then [] else [' ']) ++ collapseRunsAux p true cs
    else c :: collapseRunsAux p false cs

/-- `re.sub(pat+, " ", w)` for a character-class pattern: replace every
maximal run of characters satisfying `p` by a single space. -/
def collapseRuns (p : Char → Bool) (l : List Char) : List Char :=
  collapseRunsAux p false l

/-- The class `[" ]` of the second regex substitution. -/
def isQuoteOrSpace (c : Char) : Bool :=
  c = '"' || c = ' '

/-- The class `[^a-zA-Z?.!,¿]` of the third regex substitution (characters
that get replaced by a space). -/
def isNotKept (c : Char) : Bool :=
  !((97 ≤ c.toNat && c.toNat ≤ 122) || (65 ≤ c.toNat && c.toNat ≤ 90) ||
    isSepPunct c)

/-- `preprocess_sentence`: lowercase and strip, drop accents, space out
punctuation, collapse quote/space runs, replace disallowed characters by
spaces, strip, and wrap in start/end markers. -/
def preprocess_sentence (w : List Char) : List Char :=
  let w1 := unicode_to_ascii (stripPy (w.map Char.toLower))
  let w2 := spacePunct w1
  let w3 := collapseRuns isQuoteOrSpace w2
  let w4 := collapseRuns isNotKept w3
  let w5 := stripPy (rstripPy w4)
  "<start> ".toList ++ w5 ++ " <end>".toList

/-! ## Masked sequence loss (`loss_function` and `train_step` in
nmt_with_attention.py)

Per-token losses are exact rationals; the loss object
(`SparseCategoricalCrossentropy(reduction='none')`) is an opaque callable in
the script and is a parameter here, returning one loss per batch element. -/

/-- `tf.cast(tf.math.logical_not(tf.math.equal(real, 0)), loss.dtype)`:
the 0/1 mask, 0 exactly at padding token id 0. -/
def maskOf (real : List ℤ) : List ℚ :=
  real.map (fun r => if r = 0 then 0 else 1)

/-- `tf.reduce_mean`: sum of all entries divided by their number. -/
def reduceMean (xs : List ℚ) : ℚ :=
  xs.sum / xs.length

/-- `loss_ *= mask`: elementwise product of the per-token losses with the
padding mask. -/
def maskedLosses (real : List ℤ) (loss_ : List ℚ) : List ℚ :=
  List.zipWith (fun l m => l * m) loss_ (maskOf real)

/-- `loss_function(real, pred, loss_object)`: mask the per-token losses and
take their mean over the whole batch vector. -/
def loss_function {α : Type} (real : List ℤ) (pred : α)
    (loss_object : List ℤ → α → List ℚ) : ℚ :=
  reduceMean (maskedLosses real (loss_object real pred))

/-- `targ[:, t]`: the column of target token ids at timestep `t` (rows padded
with 0, the padding id, if too short). -/
def targColumn (targ : List (List ℤ)) (t : ℕ) : List ℤ :=
  targ.map (fun row => row.getD t 0)

/-- The loss accumulation of `train_step`: `loss += loss_function(targ[:, t],
predictions)` for `t in range(1, targ.shape[1])`, then
`batch_loss = loss / int(targ.shape[1])`.  `predsAt t` stands for the decoder
predictions at timestep `t` (under teacher forcing). -/
def train_step_loss {α : Type} (T : ℕ) (targ : List (List ℤ)) (predsAt : ℕ → α)
    (loss_object : List ℤ → α → List ℚ) : ℚ :=
  (((List.range' 1 (T - 1)).map
      (fun t => loss_function (targColumn targ t) (predsAt t) loss_object)).sum) / T

/-- Sum of per-token losses restricted to the unmasked (non-padding)
positions. -/
def unmaskedSum (real : List ℤ) (loss_ : List ℚ) : ℚ :=
  (List.zipWith (fun r l => if r = 0 then 0 else l) real loss_).sum

/-- Number of unmasked (non-padding) positions in a target vector. -/
def unmaskedCount (real : List ℤ) : ℕ :=
  (real.filter (fun r => r != 0)).length

/-- Spec-side definition, following the claim's words only: the batch loss as
"the mean of the per-token cross-entropy losses taken over the unmasked
(non-padding) positions only" — total loss at unmasked positions divided by
the number of unmasked positions, over the same decode timesteps. -/
def specUnmaskedMeanLoss {α : Type} (T : ℕ) (targ : List (List ℤ))
    (predsAt : ℕ → α) (loss_object : List ℤ → α → List ℚ) : ℚ :=
  (((List.range' 1 (T - 1)).map
      (fun t => unmaskedSum (targColumn targ t)
        (loss_object (targColumn targ t) (predsAt t)))).sum) /
  (((List.range' 1 (T - 1)).map (fun t => unmaskedCount (targColumn targ t))).sum)

/-! ## Bahdanau attention (`BahdanauAttention.call` in nmt_with_attention.py)

Real-valued tensors; weights of the three dense layers are parameters.
`query` has shape (batch, hidden), `values` has shape (batch, max_length,
hidden); the softmax is taken over the max_length axis (axis 1),
independently for each batch element. -/

/-- The learned parameters of `BahdanauAttention`: the two projection layers
`W1`, `W2` (with biases) and the scoring layer `V` reducing to one scalar. -/
structure BahdanauParams (H U : ℕ) where
  w1 : Fin U → Fin H → ℝ
  b1 : Fin U → ℝ
  w2 : Fin U → Fin H → ℝ
  b2 : Fin U → ℝ
  v : Fin U → ℝ
  bv : ℝ

/-- A Keras `Dense` layer: affine map `x ↦ W x + b`. -/
noncomputable def denseLayer {In Out : ℕ} (w : Fin Out → Fin In → ℝ)
    (b : Fin Out → ℝ) (x : Fin In → ℝ) : Fin Out → ℝ :=
  fun u => (∑ h, w u h * x h) + b u

/-- `score = self.V(tf.nn.tanh(self.W1(values) + self.W2(hidden_with_time_axis)))`:
one scalar per batch element and sequence position. -/
noncomputable def attentionScore {B L H U : ℕ} (P : BahdanauParams H U)
    (query : Fin B → Fin H → ℝ) (values : Fin B → Fin L → Fin H → ℝ)
    (b : Fin B) (j : Fin L) : ℝ :=
  (∑ u, P.v u *
      Real.tanh (denseLayer P.w1 P.b1 (values b j) u +
        denseLayer P.w2 P.b2 (query b) u)) + P.bv

/-- `attention_weights = tf.nn.softmax(score, axis=1)`: softmax of the scores
over the sequence-length axis, per batch element. -/
noncomputable def attention_weights {B L H U : ℕ} (P : BahdanauParams H U)
    (query : Fin B → Fin H → ℝ) (values : Fin B → Fin L → Fin H → ℝ)
    (b : Fin B) (j : Fin L) : ℝ :=
  Real.exp (attentionScore P query values b j) /
    ∑ k, Real.exp (attentionScore P query values b k)

/-- `context_vector = tf.reduce_sum(attention_weights * values, axis=1)`:
the weighted sum of encoder outputs under the attention weights. -/
noncomputable def context_vector {B L H U : ℕ} (P : BahdanauParams H U)
    (query : Fin B → Fin H → ℝ) (values : Fin B → Fin L → Fin H → ℝ)
    (b : Fin B) (h : Fin H) : ℝ :=
  ∑ j, attention_weights P query values b j * values b j h

/-- All-zero attention parameters at hidden size 1 and unit count 1, a
concrete instantiation for evaluating the attention layer. -/
noncomputable def zeroBahdanau : BahdanauParams 1 1 :=
  ⟨fun _ _ => 0, fun _ => 0, fun _ _ => 0, fun _ => 0, fun _ => 0, 0⟩

/-! ## Greedy decoding (`evaluate` in nmt_with_attention.py)

The trained decoder (for a 1-element batch, with the fixed encoder output
already applied) is an opaque function from (input token id, hidden state) to
(prediction logits over the vocabulary, next hidden state).  `index_word` is
the target tokenizer's id-to-word map. -/

/-- `tf.argmax(predictions[0])`: index of the (first) maximal entry. -/
def argmaxIdx : List ℚ → ℕ
  | [] => 0
  | x :: xs =>
    match xs with
    | [] => 0
    | _ :: _ =>
      let j := argmaxIdx xs
      if x < xs.getD j 0 then j + 1 else 0

/-- One greedy decoding step: run the decoder, take the arg-max token id and
the new hidden state. -/
def greedyStep {σ : Type} (decoder : ℕ → σ → List ℚ × σ) (s : ℕ × σ) : ℕ × σ :=
  let r := decoder s.1 s.2
  (argmaxIdx r.1, r.2)

/-- The decoder state reached after `k` greedy steps from a start state. -/
def greedyState {σ : Type} (decoder : ℕ → σ → List ℚ × σ) (s0 : ℕ × σ)
    (k : ℕ) : ℕ × σ :=
  (greedyStep decoder)^[k] s0

/-- The decoding loop of `evaluate`: `for t in range(max_length_targ)`, run the
decoder, take the arg-max token, append it to the result, return at once if it
is the end token, otherwise feed it back as the next decoder input. -/
def evalLoop {σ : Type} (decoder : ℕ → σ → List ℚ × σ) (index_word : ℕ → String) :
    ℕ → ℕ → σ → List ℕ
  | 0, _, _ => []
  | fuel + 1, dec_input, dec_hidden =>
    let r := decoder dec_input dec_hidden
    let predicted_id := argmaxIdx r.1
    if index_word predicted_id = "<end>" then [predicted_id]
    else predicted_id :: evalLoop decoder index_word fuel predicted_id r.2

/-- The token ids produced by `evaluate` for one sentence: the loop starts
from the `<start>` token and the encoder's final hidden state and runs for at
most `max_length_targ` steps. -/
def evaluateTokens {σ : Type} (decoder : ℕ → σ → List ℚ × σ)
    (index_word : ℕ → String) (max_length_targ startTok : ℕ) (initHidden : σ) :
    List ℕ :=
  evalLoop decoder index_word max_length_targ startTok initHidden

/-- A concrete decoder for evaluating the decoding loop: state `Unit`,
constant logits `[1, 0]`. -/
def constDecoder : ℕ → Unit → List ℚ × Unit := fun _ _ => ([1, 0], ())

/-- A concrete id-to-word map whose token 0 is the end marker. -/
def endIndexWord : ℕ → String := fun n => if n = 0 then "<end>" else "tok"

/-! ## GIF frame selection (`main` in dcgan.py)

`frame = 2 * (i ** 0.5)`; a file is appended when `round(frame) > round(last)`
and then `last = frame`.  Only `round(last)` is ever read, and `2·√i` is never
a half-integer (16·i is even while any half-integer's `(2n+1)/2` squared times
16 is odd), so we carry the rounded value, with the initial `last = -1`
contributing `round(-1) = -1`. -/

/-- `round(2 * sqrt i)` for a natural `i`, computably: since `2·√i` is never a
half-integer, this is `⌊2·√i + 1/2⌋ = (Nat.sqrt (16·i) + 1) / 2`. -/
def roundTwoSqrt (i : ℕ) : ℕ :=
  (Nat.sqrt (16 * i) + 1) / 2

/-- The frame-selection loop over file indices: keep index `i` when its
rounded frame strictly exceeds the rounded frame of the last kept index. -/
def gifSelect : List ℕ → ℤ → List ℕ
  | [], _ => []
  | i :: rest, last =>
    if last < (roundTwoSqrt i : ℤ) then i :: gifSelect rest (roundTwoSqrt i)
    else gifSelect rest last

/-- Indices of the frames appended to the GIF out of `n` sorted filenames. -/
def gifKept (n : ℕ) : List ℕ :=
  gifSelect (List.range n) (-1)

/-- The value of `round(last)` after a kept list: the rounded frame of the
most recently kept index, `-1` if none was kept yet. -/
def lastRound (l : List ℕ) : ℤ :=
  (l.getLast?.map (fun j => (roundTwoSqrt j : ℤ))).getD (-1)

/-- The running `last` state of the loop after processing a list of indices. -/
def gifState : List ℕ → ℤ → ℤ
  | [], last => last
  | i :: rest, last =>
    if last < (roundTwoSqrt i : ℤ) then gifState rest (roundTwoSqrt i)
    else gifState rest last

/-! ## Python call arity (nmt_with_attention.py call sites)

The script's `train_step`, `loss_function` and `evaluate` take only required
positional parameters (no defaults, no varargs), so a call with a different
number of arguments raises `TypeError` before the body runs. -/

/-- A Python function signature: its number of required positional
parameters. -/
structure PyFunc where
  params : ℕ

/-- Outcome of a Python call: body entered, or `TypeError` on arity
mismatch. -/
inductive PyOutcome
  | ok
  | typeError
deriving DecidableEq

/-- Calling convention: the body is entered exactly when the number of
arguments matches the number of required parameters. -/
def pyCall (f : PyFunc) (args : ℕ) : PyOutcome :=
  if args = f.params then PyOutcome.ok else PyOutcome.typeError

/-- `def train_step(inp, targ, targ_lang, encoder, enc_hidden, optimizer,
decoder)`. -/
def train_step_func : PyFunc := ⟨7⟩

/-- `def loss_function(real, pred, loss_object)`. -/
def loss_function_func : PyFunc := ⟨3⟩

/-- `def evaluate(sentence, max_length_targ, max_length_inp, inp_lang,
encoder, targ_lang, decoder)`. -/
def evaluate_func : PyFunc := ⟨7⟩

/-- `main` calls `train_step(inp, targ, enc_hidden)`. -/
def mainTrainStepCallArgs : ℕ := 3

/-- `train_step` calls `loss_function(targ[:, t], predictions)`. -/
def trainStepLossFunctionCallArgs : ℕ := 2

/-- `translate` calls `evaluate(sentence)`. -/
def translateEvaluateCallArgs : ℕ := 1

/-! ## Training-loop event traces (checkpointing in both scripts) -/

/-- Observable events of a training run. -/
inductive TrainEvent
  | batchStep (epoch : ℕ)
  | emitImage (epoch : ℕ)
  | saveCkpt (epoch : ℕ)
  | raiseTypeError
deriving DecidableEq

/-- Whether an event is a completed batch training step. -/
def isBatch : TrainEvent → Bool
  | TrainEvent.batchStep _ => true
  | _ => false

/-- The NMT batch loop of one epoch: each iteration calls `train_step` with
`args` arguments; an arity mismatch raises and aborts the run (second
component `true`). -/
def nmtBatchLoop (args epoch : ℕ) : ℕ → List TrainEvent × Bool
  | 0 => ([], false)
  | b + 1 =>
    match pyCall train_step_func args with
    | PyOutcome.ok =>
      let r := nmtBatchLoop args epoch b
      (TrainEvent.batchStep epoch :: r.1, r.2)
    | PyOutcome.typeError => ([TrainEvent.raiseTypeError], true)

/-- The NMT epoch loop: run the batches of epoch `e`; on an uncaught raise the
run ends, otherwise save a checkpoint when `(epoch + 1) % 2 == 0` and
continue with the remaining epochs. -/
def nmtEpochLoop (args B : ℕ) : ℕ → ℕ → List TrainEvent
  | _, 0 => []
  | e, k + 1 =>
    let r := nmtBatchLoop args e B
    if r.2 then r.1
    else
      r.1 ++ (if (e + 1) % 2 = 0 then [TrainEvent.saveCkpt (e + 1)] else []) ++
        nmtEpochLoop args B (e + 1) k

/-- The NMT training run as written: `main` calls `train_step` with 3
arguments. -/
def nmtTrainRun (E B : ℕ) : List TrainEvent :=
  nmtEpochLoop mainTrainStepCallArgs B 0 E

/-- The NMT training run with the `train_step` call repaired to pass all 7
required arguments (the loop the spec describes). -/
def nmtTrainRunFixed (E B : ℕ) : List TrainEvent :=
  nmtEpochLoop 7 B 0 E

/-- One DCGAN epoch: all batch steps, then the per-epoch image artifact, then
a checkpoint save exactly when `(epoch + 1) % 15 == 0`. -/
def dcganEpochBody (e B : ℕ) : List TrainEvent :=
  List.replicate B (TrainEvent.batchStep e) ++ [TrainEvent.emitImage (e + 1)] ++
    (if (e + 1) % 15 = 0 then [TrainEvent.saveCkpt (e + 1)] else [])

/-- The DCGAN epoch loop starting at epoch `e` with `k` epochs to go. -/
def dcganTrainLoop (B : ℕ) : ℕ → ℕ → List TrainEvent
  | _, 0 => []
  | e, k + 1 => dcganEpochBody e B ++ dcganTrainLoop B (e + 1) k

/-- The DCGAN `train(dataset, epochs)` run: the epoch loop followed by the
final `generate_and_save_images` after the last epoch. -/
def dcganTrain (E B : ℕ) : List TrainEvent :=
  dcganTrainLoop B 0 E ++ [TrainEvent.emitImage E]

/-! ## `Decoder.call` (nmt_with_attention.py)

The decoder's layers (embedding, GRU, fc, attention) are opaque learned
functions.  The script invokes the GRU as `self.gru(x)` with no
`initial_state`, so Keras supplies the all-zeros default initial state,
modelled by the fixed `zeroState` argument. -/

/-- `Decoder.call(x, hidden, enc_output)`: attention context from `hidden`,
embed the input token, concatenate context and embedding, run the GRU from
the framework's default zero initial state, then the final dense layer.
Returns (predictions, new state, attention weights). -/
def decoderCall {ε : Type} (embedding : ℕ → List ℚ)
    (gru : List ℚ → List ℚ → List ℚ × List ℚ) (zeroState : List ℚ)
    (fc : List ℚ → List ℚ) (attention : List ℚ → ε → List ℚ × List ℚ)
    (x : ℕ) (hidden : List ℚ) (enc_output : ε) : List ℚ × List ℚ × List ℚ :=
  let a := attention hidden enc_output
  let xe := embedding x
  let xc := a.1 ++ xe
  let r := gru xc zeroState
  (fc r.1, r.2, a.2)

/-! ## Helper lemmas -/

theorem maskedLosses_sum_eq_unmaskedSum (real : List ℤ) (loss_ : List ℚ) :
    (maskedLosses real loss_).sum = unmaskedSum real loss_ := by
  induction real generalizing loss_ with
  | nil => cases loss_ <;> simp [maskedLosses, maskOf, unmaskedSum]
  | cons r rs ih =>
    cases loss_ with
    | nil => simp [maskedLosses, maskOf, unmaskedSum]
    | cons l ls =>
      have ihl := ih ls
      simp only [maskedLosses, maskOf, unmaskedSum, List.map_cons, List.zipWith_cons_cons,
        List.sum_cons] at ihl ⊢
      by_cases hr : r = 0 <;> simp [hr, ihl]

theorem maskedLosses_length (real : List ℤ) (loss_ : List ℚ)
    (h : loss_.length = real.length) :
    (maskedLosses real loss_).length = real.length := by
  simp [maskedLosses, maskOf, h]

theorem loss_function_eq_unmaskedSum_div_batch {α : Type} (real : List ℤ) (pred : α)
    (loss_object : List ℤ → α → List ℚ)
    (h : (loss_object real pred).length = real.length) :
    loss_function real pred loss_object =
      unmaskedSum real (loss_object real pred) / real.length := by
  unfold loss_function reduceMean
  rw [maskedLosses_sum_eq_unmaskedSum, maskedLosses_length _ _ h]

/-! ## Claim theorems -/

/-- C7: `preprocess_sentence` applied to the literal string
"May I borrow this book?" returns exactly
"⟨start⟩ may i borrow this book ? ⟨end⟩" (angle-bracket markers): lowercased,
punctuation separated by spaces, and wrapped with start and end markers. -/
theorem preprocess_sentence_may_i_borrow :
    preprocess_sentence "May I borrow this book?".toList =
      "<start> may i borrow this book ? <end>".toList := by
  decide

/-- C4: the masked sequence loss contributes exactly zero at every position
whose target token id is 0 (the padding token): the mask multiplication makes
the entry of the masked per-token loss vector zero there. -/
theorem maskedLosses_zero_at_padding (real : List ℤ) (loss_ : List ℚ) (i : ℕ)
    (h : real.getD i 0 = 0) : (maskedLosses real loss_).getD i 0 = 0 := by
  induction real generalizing loss_ i with
  | nil => cases loss_ <;> simp [maskedLosses, maskOf]
  | cons r rs ih =>
    cases loss_ with
    | nil => simp [maskedLosses, maskOf]
    | cons l ls =>
      cases i with
      | zero =>
        simp only [List.getD_cons_zero] at h
        simp [maskedLosses, maskOf, h]
      | succ n =>
        simp only [List.getD_cons_succ] at h
        simpa [maskedLosses, maskOf] using ih ls n h

/-- Witness for C4 at a concrete input: position 1 of the target vector
`[5, 0]` is padding, and the masked loss vector vanishes there. -/
theorem maskedLosses_zero_at_padding_witness :
    ([(5 : ℤ), 0].getD 1 0 = 0) ∧ (maskedLosses [5, 0] [3, 7]).getD 1 0 = 0 :=
  ⟨by decide, maskedLosses_zero_at_padding [5, 0] [3, 7] 1 (by decide)⟩

/-- C2 counterexample: with target batch `[[7,5],[7,0]]` (sequence length 2,
second row padded at timestep 1) and a loss object returning per-token loss 1
everywhere, `train_step`'s batch loss is 1/4 while the mean of per-token
losses over the unmasked positions only is 1: `tf.reduce_mean` divides by the
full batch size, counting padding positions in the denominator. -/
theorem train_step_loss_ne_unmasked_mean :
    train_step_loss 2 [[7, 5], [7, 0]] (fun _ => ())
        (fun r _ => List.replicate r.length 1) ≠
      specUnmaskedMeanLoss 2 [[7, 5], [7, 0]] (fun _ => ())
        (fun r _ => List.replicate r.length 1) := by
  have h1 : train_step_loss 2 [[7, 5], [7, 0]] (fun _ => ())
      (fun r _ => List.replicate r.length 1) = 1 / 4 := by
    norm_num [train_step_loss, loss_function, reduceMean, maskedLosses, maskOf,
      targColumn, List.range', List.replicate, List.zipWith, List.sum_cons,
      List.sum_nil]
  have h2 : specUnmaskedMeanLoss 2 [[7, 5], [7, 0]] (fun _ => ())
      (fun r _ => List.replicate r.length 1) = 1 := by
    norm_num [specUnmaskedMeanLoss, unmaskedSum, unmaskedCount, targColumn,
      List.range', List.filter, List.replicate, List.zipWith, List.sum_cons,
      List.sum_nil]
    decide
  rw [h1, h2]
  norm_num

/-- C2 (amended): the batch loss of `train_step` equals the sum over decode
timesteps `t = 1 .. T-1` of (the sum of per-token losses over the unmasked
positions of timestep `t`, divided by the full batch size — padding positions
included in the denominator), all divided by the sequence length `T`; it is
not the mean over unmasked positions only. -/
theorem train_step_loss_eq_batch_denominator {α : Type} (T : ℕ)
    (targ : List (List ℤ)) (predsAt : ℕ → α) (loss_object : List ℤ → α → List ℚ)
    (h : ∀ t, (loss_object (targColumn targ t) (predsAt t)).length = targ.length) :
    train_step_loss T targ predsAt loss_object =
      (((List.range' 1 (T - 1)).map (fun t =>
          unmaskedSum (targColumn targ t)
              (loss_object (targColumn targ t) (predsAt t)) /
            targ.length)).sum) / T := by
  unfold train_step_loss
  congr 2
  apply List.map_congr_left
  intro t _
  have hlen : (loss_object (targColumn targ t) (predsAt t)).length =
      (targColumn targ t).length := by
    rw [h t]
    simp [targColumn]
  rw [loss_function_eq_unmaskedSum_div_batch _ _ _ hlen]
  simp [targColumn]

/-- Witness for C2's amended theorem at the counterexample input. -/
theorem train_step_loss_eq_batch_denominator_witness :
    (∀ t, ((fun (r : List ℤ) (_ : Unit) => List.replicate r.length (1 : ℚ))
        (targColumn [[7, 5], [7, 0]] t) ((fun _ => ()) t)).length =
      ([[7, 5], [7, 0]] : List (List ℤ)).length) ∧
    train_step_loss 2 [[7, 5], [7, 0]] (fun _ => ())
        (fun r _ => List.replicate r.length 1) =
      (((List.range' 1 (2 - 1)).map (fun t =>
          unmaskedSum (targColumn [[7, 5], [7, 0]] t)
              ((fun (r : List ℤ) (_ : Unit) => List.replicate r.length (1 : ℚ))
                (targColumn [[7, 5], [7, 0]] t) ((fun _ => ()) t)) /
            ([[7, 5], [7, 0]] : List (List ℤ)).length)).sum) / 2 :=
  ⟨fun t => by simp [targColumn],
    train_step_loss_eq_batch_denominator 2 [[7, 5], [7, 0]] (fun _ => ())
      (fun r _ => List.replicate r.length 1) (fun t => by simp [targColumn])⟩

/-- C3: `BahdanauAttention` scores each position via projection, sum and a
nonlinearity, normalizes the scores with a softmax over the sequence-length
axis — independently per batch element, not over the batch axis — and returns
the context vector as the weighted sum of encoder outputs under those
weights; consequently the attention weights of every batch element sum to 1
over the sequence-length axis. -/
theorem bahdanau_attention_weights_sum_one {B L H U : ℕ} (P : BahdanauParams H U)
    (query : Fin B → Fin H → ℝ) (values : Fin B → Fin L → Fin H → ℝ)
    (hL : 0 < L) :
    (∀ b : Fin B, ∑ j : Fin L, attention_weights P query values b j = 1) ∧
    (∀ (b : Fin B) (h : Fin H), context_vector P query values b h =
      ∑ j : Fin L, attention_weights P query values b j * values b j h) := by
  constructor
  · intro b
    have hfin : Nonempty (Fin L) := Fin.pos_iff_nonempty.mp hL
    have hne : (Finset.univ : Finset (Fin L)).Nonempty := Finset.univ_nonempty
    have hpos : 0 < ∑ k : Fin L, Real.exp (attentionScore P query values b k) :=
      Finset.sum_pos (fun k _ => Real.exp_pos _) hne
    unfold attention_weights
    rw [← Finset.sum_div]
    exact div_self (ne_of_gt hpos)
  · intro b h
    rfl

/-- Witness for C3 at batch 1, sequence length 1, hidden size 1, units 1 with
all-zero weights and inputs. -/
theorem bahdanau_attention_weights_sum_one_witness :
    0 < 1 ∧
    ((∀ b : Fin 1, ∑ j : Fin 1,
        attention_weights (B := 1) (L := 1) zeroBahdanau
          (fun _ _ => 0) (fun _ _ _ => 0) b j = 1) ∧
      (∀ (b : Fin 1) (h : Fin 1),
        context_vector (B := 1) (L := 1) zeroBahdanau
            (fun _ _ => 0) (fun _ _ _ => 0) b h =
          ∑ j : Fin 1,
            attention_weights (B := 1) (L := 1) zeroBahdanau
                (fun _ _ => 0) (fun _ _ _ => 0) b j *
              (fun (_ : Fin 1) (_ : Fin 1) (_ : Fin 1) => (0 : ℝ)) b j h)) :=
  ⟨by decide,
    bahdanau_attention_weights_sum_one (B := 1) (L := 1) zeroBahdanau
      (fun _ _ => 0) (fun _ _ _ => 0) (by decide)⟩

theorem evalLoop_length_le {σ : Type} (decoder : ℕ → σ → List ℚ × σ)
    (index_word : ℕ → String) :
    ∀ (fuel d : ℕ) (h : σ),
      (evalLoop decoder index_word fuel d h).length ≤ fuel := by
  intro fuel
  induction fuel with
  | zero => intro d h; simp [evalLoop]
  | succ n ih =>
    intro d h
    simp only [evalLoop]
    split
    · simp
    · simpa using ih _ _

theorem argmaxIdx_le (xs : List ℚ) :
    ∀ i, i < xs.length → xs.getD i 0 ≤ xs.getD (argmaxIdx xs) 0 := by
  induction xs with
  | nil => intro i hi; simp at hi
  | cons x xs ih =>
    cases xs with
    | nil =>
      intro i hi
      simp only [List.length_cons, List.length_nil] at hi
      have h0 : i = 0 := by omega
      subst h0
      simp [argmaxIdx]
    | cons y ys =>
      have hunfold : argmaxIdx (x :: y :: ys) =
          if x < (y :: ys).getD (argmaxIdx (y :: ys)) 0 then
            argmaxIdx (y :: ys) + 1
          else 0 := rfl
      intro i hi
      by_cases hx : x < (y :: ys).getD (argmaxIdx (y :: ys)) 0
      · rw [hunfold, if_pos hx, List.getD_cons_succ]
        cases i with
        | zero => exact le_of_lt hx
        | succ n =>
          rw [List.getD_cons_succ]
          exact ih n (Nat.lt_of_succ_lt_succ hi)
      · rw [hunfold, if_neg hx, List.getD_cons_zero]
        cases i with
        | zero => simp
        | succ n =>
          rw [List.getD_cons_succ]
          exact le_trans (ih n (Nat.lt_of_succ_lt_succ hi)) (not_lt.mp hx)

theorem evalLoop_getD {σ : Type} (decoder : ℕ → σ → List ℚ × σ)
    (index_word : ℕ → String) :
    ∀ (fuel : ℕ) (s : ℕ × σ) (k : ℕ),
      k < (evalLoop decoder index_word fuel s.1 s.2).length →
      (evalLoop decoder index_word fuel s.1 s.2).getD k 0 =
        ((greedyStep decoder)^[k + 1] s).1 := by
  intro fuel
  induction fuel with
  | zero => intro s k hk; simp [evalLoop] at hk
  | succ n ih =>
    intro s k hk
    simp only [evalLoop] at hk ⊢
    by_cases hend :
        index_word (argmaxIdx (decoder s.1 s.2).1) = "<end>"
    · rw [if_pos hend] at hk ⊢
      simp only [List.length_singleton] at hk
      have h0 : k = 0 := by omega
      subst h0
      rfl
    · rw [if_neg hend] at hk ⊢
      cases k with
      | zero => rfl
      | succ m =>
        simp only [List.length_cons] at hk
        rw [List.getD_cons_succ]
        have hrec := ih (argmaxIdx (decoder s.1 s.2).1, (decoder s.1 s.2).2) m
          (Nat.lt_of_succ_lt_succ hk)
        rw [hrec, show (greedyStep decoder)^[m + 1 + 1] s =
            (greedyStep decoder)^[m + 1] (greedyStep decoder s) from
          Function.iterate_succ_apply _ _ _]
        rfl

theorem evalLoop_no_early_end {σ : Type} (decoder : ℕ → σ → List ℚ × σ)
    (index_word : ℕ → String) :
    ∀ (fuel : ℕ) (s : ℕ × σ) (k : ℕ),
      k + 1 < (evalLoop decoder index_word fuel s.1 s.2).length →
      index_word ((evalLoop decoder index_word fuel s.1 s.2).getD k 0) ≠
        "<end>" := by
  intro fuel
  induction fuel with
  | zero => intro s k hk; simp [evalLoop] at hk
  | succ n ih =>
    intro s k hk
    simp only [evalLoop] at hk ⊢
    by_cases hend :
        index_word (argmaxIdx (decoder s.1 s.2).1) = "<end>"
    · rw [if_pos hend] at hk
      simp only [List.length_singleton] at hk
      omega
    · rw [if_neg hend] at hk ⊢
      cases k with
      | zero =>
        rw [List.getD_cons_zero]
        exact hend
      | succ m =>
        simp only [List.length_cons] at hk
        rw [List.getD_cons_succ]
        exact ih (argmaxIdx (decoder s.1 s.2).1, (decoder s.1 s.2).2) m
          (Nat.lt_of_succ_lt_succ hk)

theorem evalLoop_stops_at_end {σ : Type} (decoder : ℕ → σ → List ℚ × σ)
    (index_word : ℕ → String) :
    ∀ (fuel : ℕ) (s : ℕ × σ),
      (evalLoop decoder index_word fuel s.1 s.2).length < fuel →
      0 < (evalLoop decoder index_word fuel s.1 s.2).length ∧
        index_word ((evalLoop decoder index_word fuel s.1 s.2).getD
          ((evalLoop decoder index_word fuel s.1 s.2).length - 1) 0) =
          "<end>" := by
  intro fuel
  induction fuel with
  | zero => intro s hlt; simp [evalLoop] at hlt
  | succ n ih =>
    intro s hlt
    simp only [evalLoop] at hlt ⊢
    by_cases hend :
        index_word (argmaxIdx (decoder s.1 s.2).1) = "<end>"
    · rw [if_pos hend] at hlt ⊢
      exact ⟨by simp, by simpa using hend⟩
    · rw [if_neg hend] at hlt ⊢
      simp only [List.length_cons] at hlt ⊢
      have hrec := ih (argmaxIdx (decoder s.1 s.2).1, (decoder s.1 s.2).2)
        (Nat.lt_of_succ_lt_succ hlt)
      obtain ⟨hpos, hword⟩ := hrec
      refine ⟨Nat.succ_pos _, ?_⟩
      rw [Nat.add_sub_cancel,
        show (evalLoop decoder index_word n (argmaxIdx (decoder s.1 s.2).1)
            (decoder s.1 s.2).2).length =
          ((evalLoop decoder index_word n (argmaxIdx (decoder s.1 s.2).1)
            (decoder s.1 s.2).2).length - 1) + 1 from
          (Nat.succ_pred_eq_of_pos hpos).symm,
        List.getD_cons_succ]
      exact hword

/-- C6: greedy decoding in `evaluate` terminates after at most
`max_length_targ` decoding steps, even if the end token is never produced:
the loop is bounded by the configured maximum target length. -/
theorem evaluate_terminates_within_max {σ : Type} (decoder : ℕ → σ → List ℚ × σ)
    (index_word : ℕ → String) (max_length_targ startTok : ℕ) (initHidden : σ) :
    (evaluateTokens decoder index_word max_length_targ startTok
      initHidden).length ≤ max_length_targ :=
  evalLoop_length_le decoder index_word max_length_targ startTok initHidden

/-- C5: `evaluate` performs iterative greedy decoding.  With
`st k = (greedyStep decoder)^[k] (startTok, initHidden)` the greedily reached
decoder state before step `k`: every produced token is the arg-max of the
decoder's output distribution at that state (hence of maximal probability),
every token but the last is not the end token (decoding continues by feeding
the prediction back), and if the loop stopped before `max_length_targ` steps
then the last produced token is the end token.  The output is a pure function
of the inputs — greedy and deterministic, no sampling. -/
theorem evaluate_is_greedy_decoding {σ : Type} (decoder : ℕ → σ → List ℚ × σ)
    (index_word : ℕ → String) (max_length_targ startTok : ℕ) (initHidden : σ) :
    (∀ k, k < (evaluateTokens decoder index_word max_length_targ startTok
        initHidden).length →
      (evaluateTokens decoder index_word max_length_targ startTok
          initHidden).getD k 0 =
        argmaxIdx (decoder
          (greedyState decoder (startTok, initHidden) k).1
          (greedyState decoder (startTok, initHidden) k).2).1) ∧
    (∀ k, k < (evaluateTokens decoder index_word max_length_targ startTok
        initHidden).length →
      ∀ i, i < (decoder (greedyState decoder (startTok, initHidden) k).1
          (greedyState decoder (startTok, initHidden) k).2).1.length →
        (decoder (greedyState decoder (startTok, initHidden) k).1
            (greedyState decoder (startTok, initHidden) k).2).1.getD i 0 ≤
          (decoder (greedyState decoder (startTok, initHidden) k).1
              (greedyState decoder (startTok, initHidden) k).2).1.getD
            ((evaluateTokens decoder index_word max_length_targ startTok
              initHidden).getD k 0) 0) ∧
    (∀ k, k + 1 < (evaluateTokens decoder index_word max_length_targ startTok
        initHidden).length →
      index_word ((evaluateTokens decoder index_word max_length_targ startTok
        initHidden).getD k 0) ≠ "<end>") ∧
    ((evaluateTokens decoder index_word max_length_targ startTok
        initHidden).length < max_length_targ →
      0 < (evaluateTokens decoder index_word max_length_targ startTok
        initHidden).length ∧
      index_word ((evaluateTokens decoder index_word max_length_targ startTok
          initHidden).getD
        ((evaluateTokens decoder index_word max_length_targ startTok
          initHidden).length - 1) 0) = "<end>") := by
  have hget : ∀ k, k < (evaluateTokens decoder index_word max_length_targ
      startTok initHidden).length →
      (evaluateTokens decoder index_word max_length_targ startTok
          initHidden).getD k 0 =
        argmaxIdx (decoder
          (greedyState decoder (startTok, initHidden) k).1
          (greedyState decoder (startTok, initHidden) k).2).1 := by
    intro k hk
    have h := evalLoop_getD decoder index_word max_length_targ
      (startTok, initHidden) k hk
    rw [Function.iterate_succ_apply'] at h
    exact h
  refine ⟨hget, ?_, ?_, ?_⟩
  · intro k hk i hi
    rw [hget k hk]
    exact argmaxIdx_le _ i hi
  · intro k hk
    exact evalLoop_no_early_end decoder index_word max_length_targ
      (startTok, initHidden) k hk
  · intro hlt
    exact evalLoop_stops_at_end decoder index_word max_length_targ
      (startTok, initHidden) hlt

/-- Witness for C5: with the constant decoder (logits `[1, 0]`), token 0 is
the arg-max and is the end token, so decoding stops after one step of the
three allowed. -/
theorem evaluate_is_greedy_decoding_witness :
    (0 < (evaluateTokens constDecoder endIndexWord 3 5 ()).length) ∧
    (evaluateTokens constDecoder endIndexWord 3 5 ()).getD 0 0 =
      argmaxIdx (constDecoder (greedyState constDecoder (5, ()) 0).1
        (greedyState constDecoder (5, ()) 0).2).1 ∧
    ((evaluateTokens constDecoder endIndexWord 3 5 ()).length < 3 →
      0 < (evaluateTokens constDecoder endIndexWord 3 5 ()).length ∧
        endIndexWord ((evaluateTokens constDecoder endIndexWord 3 5 ()).getD
          ((evaluateTokens constDecoder endIndexWord 3 5 ()).length - 1) 0) =
          "<end>") := by
  have h := evaluate_is_greedy_decoding constDecoder endIndexWord 3 5 ()
  exact ⟨by decide, h.1 0 (by decide), h.2.2.2⟩

/-- C10: in `Decoder.call` the GRU is invoked without an `initial_state`
argument (it always starts from the framework's zero default), so the
incoming hidden state influences the predictions and the returned state only
through the attention context vector: two calls whose context vectors
coincide yield the same predictions and the same returned GRU state,
whatever the hidden arguments were. -/
theorem decoder_hidden_only_through_context {ε : Type} (embedding : ℕ → List ℚ)
    (gru : List ℚ → List ℚ → List ℚ × List ℚ) (zeroState : List ℚ)
    (fc : List ℚ → List ℚ) (attention : List ℚ → ε → List ℚ × List ℚ)
    (x : ℕ) (h1 h2 : List ℚ) (enc_output : ε)
    (hctx : (attention h1 enc_output).1 = (attention h2 enc_output).1) :
    (decoderCall embedding gru zeroState fc attention x h1 enc_output).1 =
      (decoderCall embedding gru zeroState fc attention x h2 enc_output).1 ∧
    (decoderCall embedding gru zeroState fc attention x h1 enc_output).2.1 =
      (decoderCall embedding gru zeroState fc attention x h2 enc_output).2.1 := by
  simp only [decoderCall]
  rw [hctx]
  exact ⟨rfl, rfl⟩

/-- Witness for C10: an attention layer ignoring its query in the first
component, with two different hidden states. -/
theorem decoder_hidden_only_through_context_witness :
    ((fun (h : List ℚ) (_ : Unit) => (([] : List ℚ), h)) [1] ()).1 =
      ((fun (h : List ℚ) (_ : Unit) => (([] : List ℚ), h)) [2] ()).1 ∧
    ((decoderCall (fun _ => []) (fun a b => (a, b)) [] id
        (fun h _ => ([], h)) 0 [1] ()).1 =
      (decoderCall (fun _ => []) (fun a b => (a, b)) [] id
        (fun h _ => ([], h)) 0 [2] ()).1 ∧
     (decoderCall (fun _ => []) (fun a b => (a, b)) [] id
        (fun h _ => ([], h)) 0 [1] ()).2.1 =
      (decoderCall (fun _ => []) (fun a b => (a, b)) [] id
        (fun h _ => ([], h)) 0 [2] ()).2.1) :=
  ⟨rfl, decoder_hidden_only_through_context (fun _ => []) (fun a b => (a, b))
    [] id (fun h _ => ([], h)) 0 [1] [2] () rfl⟩

theorem nmtTrainRun_raises (E B : ℕ) :
    nmtTrainRun (E + 1) (B + 1) = [TrainEvent.raiseTypeError] := by
  simp [nmtTrainRun, nmtEpochLoop, nmtBatchLoop, pyCall, train_step_func,
    mainTrainStepCallArgs]

/-- C1: the NMT script's entry points fail with arity `TypeError`s as
written: `main` calls `train_step` with 3 of its 7 required arguments,
`train_step` calls `loss_function` with 2 of its 3 required arguments and
`translate` calls `evaluate` with 1 of its 7 required arguments; hence every
training run — whatever the number of epochs and batches, both at least
one — raises on the first batch of the first epoch without completing a
single step, and no other event is ever produced. -/
theorem nmt_calls_raise_type_errors :
    pyCall train_step_func mainTrainStepCallArgs = PyOutcome.typeError ∧
    pyCall loss_function_func trainStepLossFunctionCallArgs =
      PyOutcome.typeError ∧
    pyCall evaluate_func translateEvaluateCallArgs = PyOutcome.typeError ∧
    (∀ E B : ℕ, nmtTrainRun (E + 1) (B + 1) = [TrainEvent.raiseTypeError]) :=
  ⟨by decide, by decide, by decide, nmtTrainRun_raises⟩

theorem roundTwoSqrt_eq_round (i : ℕ) :
    (roundTwoSqrt i : ℤ) = round (2 * Real.sqrt i) := by
  show (((Nat.sqrt (16 * i) + 1) / 2 : ℕ) : ℤ) = round (2 * Real.sqrt i)
  have hs0 : Real.sqrt ((16 * i : ℕ) : ℝ) = 4 * Real.sqrt i := by
    push_cast
    rw [show ((16 : ℝ) * i) = (4 : ℝ) ^ 2 * i by norm_num,
      Real.sqrt_mul (by positivity) _, Real.sqrt_sq (by norm_num)]
  have hm : (Nat.sqrt (16 * i) : ℝ) ≤ Real.sqrt ((16 * i : ℕ) : ℝ) :=
    Real.nat_sqrt_le_real_sqrt
  have hm2 : Real.sqrt ((16 * i : ℕ) : ℝ) < Nat.sqrt (16 * i) + 1 :=
    Real.real_sqrt_lt_nat_sqrt_succ
  rw [hs0] at hm hm2
  have hdiv := Nat.div_add_mod (Nat.sqrt (16 * i) + 1) 2
  have hmod : (Nat.sqrt (16 * i) + 1) % 2 < 2 := Nat.mod_lt _ (by norm_num)
  have hq1 : 2 * ((Nat.sqrt (16 * i) + 1) / 2) ≤ Nat.sqrt (16 * i) + 1 := by omega
  have hq2 : Nat.sqrt (16 * i) + 1 ≤ 2 * ((Nat.sqrt (16 * i) + 1) / 2) + 1 := by
    omega
  have hq1R : (2 : ℝ) * ((Nat.sqrt (16 * i) + 1) / 2 : ℕ) ≤
      (Nat.sqrt (16 * i) : ℝ) + 1 := by exact_mod_cast hq1
  have hq2R : (Nat.sqrt (16 * i) : ℝ) + 1 ≤
      2 * ((Nat.sqrt (16 * i) + 1) / 2 : ℕ) + 1 := by exact_mod_cast hq2
  rw [round_eq]
  symm
  rw [Int.floor_eq_iff]
  rw [Int.cast_natCast]
  constructor
  · linarith
  · linarith

theorem gifSelect_subset :
    ∀ (l : List ℕ) (last : ℤ) (x : ℕ), x ∈ gifSelect l last → x ∈ l := by
  intro l
  induction l with
  | nil => intro last x hx; simp [gifSelect] at hx
  | cons i rest ih =>
    intro last x hx
    simp only [gifSelect] at hx
    by_cases hc : last < (roundTwoSqrt i : ℤ)
    · rw [if_pos hc] at hx
      rcases List.mem_cons.mp hx with h | h
      · exact h ▸ List.mem_cons_self _ _
      · exact List.mem_cons_of_mem _ (ih _ _ h)
    · rw [if_neg hc] at hx
      exact List.mem_cons_of_mem _ (ih _ _ hx)

theorem gifSelect_gt_last :
    ∀ (l : List ℕ) (last : ℤ) (x : ℕ),
      x ∈ gifSelect l last → last < (roundTwoSqrt x : ℤ) := by
  intro l
  induction l with
  | nil => intro last x hx; simp [gifSelect] at hx
  | cons i rest ih =>
    intro last x hx
    simp only [gifSelect] at hx
    by_cases hc : last < (roundTwoSqrt i : ℤ)
    · rw [if_pos hc] at hx
      rcases List.mem_cons.mp hx with h | h
      · exact h ▸ hc
      · exact lt_trans hc (ih _ _ h)
    · rw [if_neg hc] at hx
      exact ih _ _ hx

theorem gifSelect_cons (i : ℕ) (rest : List ℕ) (last : ℤ) :
    gifSelect (i :: rest) last =
      if last < (roundTwoSqrt i : ℤ) then
        i :: gifSelect rest (roundTwoSqrt i)
      else gifSelect rest last := rfl

theorem gifState_cons (i : ℕ) (rest : List ℕ) (last : ℤ) :
    gifState (i :: rest) last =
      if last < (roundTwoSqrt i : ℤ) then gifState rest (roundTwoSqrt i)
      else gifState rest last := rfl

theorem gifSelect_append (a b : List ℕ) :
    ∀ last : ℤ, gifSelect (a ++ b) last =
      gifSelect a last ++ gifSelect b (gifState a last) := by
  induction a with
  | nil => intro last; simp [gifSelect, gifState]
  | cons i rest ih =>
    intro last
    rw [List.cons_append, gifSelect_cons, gifSelect_cons, gifState_cons]
    by_cases hc : last < (roundTwoSqrt i : ℤ)
    · rw [if_pos hc, if_pos hc, if_pos hc, ih, List.cons_append]
    · rw [if_neg hc, if_neg hc, if_neg hc, ih]

theorem gifState_eq_getLast :
    ∀ (l : List ℕ) (last : ℤ), gifState l last =
      ((gifSelect l last).getLast?.map (fun j => (roundTwoSqrt j : ℤ))).getD
        last := by
  intro l
  induction l with
  | nil => intro last; simp [gifSelect, gifState]
  | cons i rest ih =>
    intro last
    rw [gifSelect_cons, gifState_cons]
    by_cases hc : last < (roundTwoSqrt i : ℤ)
    · rw [if_pos hc, if_pos hc, ih (roundTwoSqrt i)]
      cases hsel : gifSelect rest (roundTwoSqrt i) with
      | nil => simp
      | cons y ys =>
        rw [List.getLast?_cons_cons]
        cases hy : (y :: ys).getLast? with
        | none => simp at hy
        | some z => simp [hy]
    · rw [if_neg hc, if_neg hc, ih last]

theorem gifKept_mem_iff :
    ∀ n i : ℕ, i ∈ gifKept n ↔
      i < n ∧ lastRound (gifKept i) < (roundTwoSqrt i : ℤ) := by
  intro n i
  by_cases hin : i < n
  · have hsplit : List.range n =
        List.range i ++ (i :: List.range' (i + 1) (n - i - 1)) := by
      have h2 := List.range'_append_1 0 i (n - i - 1 + 1)
      simp only [Nat.zero_add] at h2
      have h3 : n - i - 1 + 1 + i = n := by omega
      rw [h3] at h2
      rw [List.range_eq_range', List.range_eq_range', ← h2,
        List.range'_succ i (n - i - 1) 1]
    have hstate : gifState (List.range i) (-1) = lastRound (gifKept i) := by
      rw [gifState_eq_getLast]
      rfl
    constructor
    · intro hmem
      refine ⟨hin, ?_⟩
      unfold gifKept at hmem
      rw [hsplit, gifSelect_append, hstate] at hmem
      rcases List.mem_append.mp hmem with h | h
      · exact absurd (List.mem_range.mp (gifSelect_subset _ _ _ h)) (lt_irrefl i)
      · simp only [gifSelect] at h
        by_cases hc : lastRound (gifKept i) < (roundTwoSqrt i : ℤ)
        · exact hc
        · rw [if_neg hc] at h
          have := List.mem_range'_1.mp (gifSelect_subset _ _ _ h)
          omega
    · rintro ⟨-, hc⟩
      unfold gifKept
      rw [hsplit, gifSelect_append, hstate]
      refine List.mem_append_right _ ?_
      simp only [gifSelect]
      rw [if_pos hc]
      exact List.mem_cons_self _ _
  · constructor
    · intro hmem
      have := List.mem_range.mp (gifSelect_subset _ _ _ hmem)
      omega
    · rintro ⟨h, -⟩
      omega

theorem gifSelect_pairwise :
    ∀ (l : List ℕ) (last : ℤ),
      ((gifSelect l last).map roundTwoSqrt).Pairwise (· < ·) := by
  intro l
  induction l with
  | nil => intro last; simp [gifSelect]
  | cons i rest ih =>
    intro last
    simp only [gifSelect]
    by_cases hc : last < (roundTwoSqrt i : ℤ)
    · rw [if_pos hc]
      rw [List.map_cons, List.pairwise_cons]
      refine ⟨?_, ih _⟩
      intro y hy
      rcases List.mem_map.mp hy with ⟨x, hx, rfl⟩
      exact_mod_cast gifSelect_gt_last _ _ _ hx
    · rw [if_neg hc]
      exact ih _

/-- C8: in GIF assembly, the file at sorted index `i` is appended iff
`round(2·sqrt i)` strictly exceeds the rounded frame index of the most
recently kept file (`-1` when none is kept yet); the computable
`roundTwoSqrt` agrees with the real-valued `round (2·√i)`, and the rounded
indices of the kept files form a strictly increasing sequence. -/
theorem gif_frames_kept_iff :
    (∀ i : ℕ, (roundTwoSqrt i : ℤ) = round (2 * Real.sqrt i)) ∧
    (∀ n i : ℕ, i ∈ gifKept n ↔
      i < n ∧ lastRound (gifKept i) < (roundTwoSqrt i : ℤ)) ∧
    (∀ n : ℕ, ((gifKept n).map roundTwoSqrt).Pairwise (· < ·)) :=
  ⟨roundTwoSqrt_eq_round, gifKept_mem_iff,
    fun n => gifSelect_pairwise (List.range n) (-1)⟩

theorem countP_isBatch_replicate (B e : ℕ) :
    (List.replicate B (TrainEvent.batchStep e)).countP isBatch = B := by
  induction B with
  | zero => rfl
  | succ m ih => simp [List.replicate_succ, List.countP_cons, ih, isBatch]

theorem dcgan_body_save_mem (e B x : ℕ) :
    TrainEvent.saveCkpt x ∈ dcganEpochBody e B ↔
      (x = e + 1 ∧ (e + 1) % 15 = 0) := by
  by_cases hc : (e + 1) % 15 = 0 <;>
    simp [dcganEpochBody, hc, List.mem_append, List.mem_replicate, eq_comm]

theorem dcgan_loop_save_mem (B : ℕ) :
    ∀ (k e x : ℕ), TrainEvent.saveCkpt x ∈ dcganTrainLoop B e k ↔
      (e + 1 ≤ x ∧ x ≤ e + k ∧ x % 15 = 0) := by
  intro k
  induction k with
  | zero =>
    intro e x
    simp only [dcganTrainLoop, List.not_mem_nil, false_iff]
    omega
  | succ m ih =>
    intro e x
    simp only [dcganTrainLoop, List.mem_append, dcgan_body_save_mem, ih (e + 1)]
    constructor
    · rintro (⟨rfl, h2⟩ | ⟨h1, h2, h3⟩)
      · exact ⟨le_refl _, by omega, h2⟩
      · exact ⟨by omega, by omega, h3⟩
    · rintro ⟨h1, h2, h3⟩
      by_cases hx : x = e + 1
      · subst hx
        exact Or.inl ⟨rfl, h3⟩
      · exact Or.inr ⟨by omega, by omega, h3⟩

theorem nmtBatchLoop_ok (e : ℕ) :
    ∀ b, nmtBatchLoop 7 e b =
      (List.replicate b (TrainEvent.batchStep e), false) := by
  intro b
  induction b with
  | zero => rfl
  | succ m ih =>
    simp [nmtBatchLoop, pyCall, train_step_func, ih, List.replicate_succ]

theorem nmtEpochLoop_fixed_rec (B e k : ℕ) :
    nmtEpochLoop 7 B e (k + 1) =
      (List.replicate B (TrainEvent.batchStep e) ++
        (if (e + 1) % 2 = 0 then [TrainEvent.saveCkpt (e + 1)] else [])) ++
        nmtEpochLoop 7 B (e + 1) k := by
  simp [nmtEpochLoop, nmtBatchLoop_ok, List.append_assoc]

theorem nmt_body_save_mem (e B x : ℕ) :
    TrainEvent.saveCkpt x ∈
        (List.replicate B (TrainEvent.batchStep e) ++
          (if (e + 1) % 2 = 0 then [TrainEvent.saveCkpt (e + 1)] else [])) ↔
      (x = e + 1 ∧ (e + 1) % 2 = 0) := by
  by_cases hc : (e + 1) % 2 = 0 <;>
    simp [hc, List.mem_append, List.mem_replicate, eq_comm]

theorem nmt_fixed_loop_save_mem (B : ℕ) :
    ∀ (k e x : ℕ), TrainEvent.saveCkpt x ∈ nmtEpochLoop 7 B e k ↔
      (e + 1 ≤ x ∧ x ≤ e + k ∧ x % 2 = 0) := by
  intro k
  induction k with
  | zero =>
    intro e x
    simp only [nmtEpochLoop, List.not_mem_nil, false_iff]
    omega
  | succ m ih =>
    intro e x
    rw [nmtEpochLoop_fixed_rec, List.mem_append, nmt_body_save_mem, ih (e + 1)]
    constructor
    · rintro (⟨rfl, h2⟩ | ⟨h1, h2, h3⟩)
      · exact ⟨le_refl _, by omega, h2⟩
      · exact ⟨by omega, by omega, h3⟩
    · rintro ⟨h1, h2, h3⟩
      by_cases hx : x = e + 1
      · subst hx
        exact Or.inl ⟨rfl, h3⟩
      · exact Or.inr ⟨by omega, by omega, h3⟩

theorem append_singleton_save_eq (y : ℕ) :
    ∀ (u pre tl : List TrainEvent) (x : ℕ),
      (∀ z : ℕ, TrainEvent.saveCkpt z ∉ u) →
      u ++ [TrainEvent.saveCkpt y] = pre ++ TrainEvent.saveCkpt x :: tl →
      x = y ∧ pre = u ∧ tl = [] := by
  intro u
  induction u with
  | nil =>
    intro pre tl x hnot h
    cases pre with
    | nil =>
      simp only [List.nil_append] at h
      obtain ⟨h1, h2⟩ := List.cons.inj h
      exact ⟨(TrainEvent.saveCkpt.inj h1).symm, rfl, h2.symm⟩
    | cons p ps =>
      simp only [List.nil_append, List.cons_append] at h
      obtain ⟨-, h2⟩ := List.cons.inj h
      exact absurd h2.symm (List.append_ne_nil_of_right_ne_nil _ (by simp))
  | cons a us ih =>
    intro pre tl x hnot h
    cases pre with
    | nil =>
      simp only [List.cons_append, List.nil_append] at h
      obtain ⟨h1, -⟩ := List.cons.inj h
      exact absurd (h1 ▸ List.mem_cons_self a us) (hnot x)
    | cons p ps =>
      simp only [List.cons_append] at h
      obtain ⟨h1, h2⟩ := List.cons.inj h
      obtain ⟨hx, hps, htl⟩ :=
        ih ps tl x (fun z hz => hnot z (List.mem_cons_of_mem _ hz)) h2
      exact ⟨hx, by rw [h1, hps], htl⟩

theorem dcgan_body_save_split (e B x : ℕ) (pre tl : List TrainEvent)
    (h : dcganEpochBody e B = pre ++ TrainEvent.saveCkpt x :: tl) :
    x = e + 1 ∧ pre.countP isBatch = B ∧ tl = [] := by
  have hmem : TrainEvent.saveCkpt x ∈ dcganEpochBody e B := by
    rw [h]
    exact List.mem_append_right _ (List.mem_cons_self _ _)
  rw [dcgan_body_save_mem] at hmem
  obtain ⟨hx, hcond⟩ := hmem
  rw [dcganEpochBody, if_pos hcond] at h
  have hnot : ∀ z : ℕ, TrainEvent.saveCkpt z ∉
      (List.replicate B (TrainEvent.batchStep e) ++
        [TrainEvent.emitImage (e + 1)]) := by
    intro z hz
    rcases List.mem_append.mp hz with h' | h'
    · exact absurd (List.eq_of_mem_replicate h') (by simp)
    · simp at h'
  obtain ⟨h1, h2, h3⟩ := append_singleton_save_eq (e + 1) _ pre tl x hnot h
  refine ⟨hx, ?_, h3⟩
  rw [h2, List.countP_append, countP_isBatch_replicate]
  simp [isBatch]

theorem nmt_body_save_split (e B x : ℕ) (pre tl : List TrainEvent)
    (h : List.replicate B (TrainEvent.batchStep e) ++
        (if (e + 1) % 2 = 0 then [TrainEvent.saveCkpt (e + 1)] else []) =
      pre ++ TrainEvent.saveCkpt x :: tl) :
    x = e + 1 ∧ pre.countP isBatch = B ∧ tl = [] := by
  have hmem : TrainEvent.saveCkpt x ∈
      (List.replicate B (TrainEvent.batchStep e) ++
        (if (e + 1) % 2 = 0 then [TrainEvent.saveCkpt (e + 1)] else [])) := by
    rw [h]
    exact List.mem_append_right _ (List.mem_cons_self _ _)
  rw [nmt_body_save_mem] at hmem
  obtain ⟨hx, hcond⟩ := hmem
  rw [if_pos hcond] at h
  have hnot : ∀ z : ℕ,
      TrainEvent.saveCkpt z ∉ List.replicate B (TrainEvent.batchStep e) := by
    intro z hz
    exact absurd (List.eq_of_mem_replicate hz) (by simp)
  obtain ⟨h1, h2, h3⟩ := append_singleton_save_eq (e + 1) _ pre tl x hnot h
  refine ⟨hx, ?_, h3⟩
  rw [h2, countP_isBatch_replicate]

theorem loop_save_lb (loopF : ℕ → ℕ → List TrainEvent)
    (bodyF : ℕ → List TrainEvent)
    (hrec : ∀ e k, loopF e (k + 1) = bodyF e ++ loopF (e + 1) k)
    (hnil : ∀ e, loopF e 0 = [])
    (hmem : ∀ e x, TrainEvent.saveCkpt x ∈ bodyF e → x = e + 1) :
    ∀ (k e x : ℕ), TrainEvent.saveCkpt x ∈ loopF e k → e + 1 ≤ x := by
  intro k
  induction k with
  | zero =>
    intro e x hx
    rw [hnil] at hx
    simp at hx
  | succ m ih =>
    intro e x hx
    rw [hrec] at hx
    rcases List.mem_append.mp hx with h | h
    · exact (hmem e x h).ge
    · have := ih (e + 1) x h
      omega

theorem loop_save_position (loopF : ℕ → ℕ → List TrainEvent)
    (bodyF : ℕ → List TrainEvent) (B : ℕ)
    (hrec : ∀ e k, loopF e (k + 1) = bodyF e ++ loopF (e + 1) k)
    (hnil : ∀ e, loopF e 0 = [])
    (hmem : ∀ e x, TrainEvent.saveCkpt x ∈ bodyF e → x = e + 1)
    (hsplit : ∀ e x pre tl, bodyF e = pre ++ TrainEvent.saveCkpt x :: tl →
      x = e + 1 ∧ pre.countP isBatch = B ∧ tl = [])
    (hcount : ∀ e, (bodyF e).countP isBatch = B) :
    ∀ (k e x : ℕ) (pre post : List TrainEvent),
      loopF e k = pre ++ TrainEvent.saveCkpt x :: post →
      pre.countP isBatch = (x - e) * B := by
  intro k
  induction k with
  | zero =>
    intro e x pre post h
    rw [hnil] at h
    have := congrArg List.length h
    simp at this
    omega
  | succ m ih =>
    intro e x pre post h
    rw [hrec] at h
    rcases List.append_eq_append_iff.mp h with ⟨a', ha1, ha2⟩ | ⟨c', hc1, hc2⟩
    · have hx : e + 2 ≤ x := by
        have hm : TrainEvent.saveCkpt x ∈ loopF (e + 1) m := by
          rw [ha2]
          exact List.mem_append_right _ (List.mem_cons_self _ _)
        have := loop_save_lb loopF bodyF hrec hnil hmem m (e + 1) x hm
        omega
      have hcnt := ih (e + 1) x a' post ha2
      rw [ha1, List.countP_append, hcount, hcnt]
      have hxe : x - e = (x - (e + 1)) + 1 := by omega
      rw [hxe, Nat.succ_mul]
      omega
    · cases c' with
      | nil =>
        have hloop : loopF (e + 1) m = [] ++ TrainEvent.saveCkpt x :: post := by
          simpa using hc2.symm
        have hcnt0 : (x - (e + 1)) * B = 0 :=
          (ih (e + 1) x [] post hloop).symm.trans (by simp)
        have hx : e + 2 ≤ x := by
          have hm : TrainEvent.saveCkpt x ∈ loopF (e + 1) m := by
            rw [hloop]
            simp
          have := loop_save_lb loopF bodyF hrec hnil hmem m (e + 1) x hm
          omega
        have hpre : pre = bodyF e := by simpa using hc1.symm
        rw [hpre, hcount]
        have hxe : x - e = (x - (e + 1)) + 1 := by omega
        rw [hxe, Nat.succ_mul, hcnt0, Nat.zero_add]
      | cons hd tl2 =>
        obtain ⟨h1, h2⟩ := List.cons.inj hc2
        rw [← h1] at hc1
        obtain ⟨hx, hcntp, -⟩ := hsplit e x pre tl2 hc1
        rw [hcntp, hx]
        simp

theorem dcgan_body_countP (e B : ℕ) :
    (dcganEpochBody e B).countP isBatch = B := by
  by_cases hc : (e + 1) % 15 = 0 <;>
    simp [dcganEpochBody, hc, List.countP_append, countP_isBatch_replicate,
      isBatch]

theorem nmt_body_countP (e B : ℕ) :
    (List.replicate B (TrainEvent.batchStep e) ++
      (if (e + 1) % 2 = 0 then [TrainEvent.saveCkpt (e + 1)]
       else [])).countP isBatch = B := by
  by_cases hc : (e + 1) % 2 = 0 <;>
    simp [hc, List.countP_append, countP_isBatch_replicate, isBatch]

theorem dcganTrainLoop_save_position (B k e x : ℕ)
    (pre post : List TrainEvent)
    (h : dcganTrainLoop B e k = pre ++ TrainEvent.saveCkpt x :: post) :
    pre.countP isBatch = (x - e) * B :=
  loop_save_position (fun e k => dcganTrainLoop B e k)
    (fun e => dcganEpochBody e B) B (fun _ _ => rfl) (fun _ => rfl)
    (fun e x hx => ((dcgan_body_save_mem e B x).mp hx).1)
    (fun e x pre tl hsp => dcgan_body_save_split e B x pre tl hsp)
    (fun e => dcgan_body_countP e B) k e x pre post h

theorem nmtFixed_loop_save_position (B k e x : ℕ)
    (pre post : List TrainEvent)
    (h : nmtEpochLoop 7 B e k = pre ++ TrainEvent.saveCkpt x :: post) :
    pre.countP isBatch = (x - e) * B :=
  loop_save_position (fun e k => nmtEpochLoop 7 B e k)
    (fun e => List.replicate B (TrainEvent.batchStep e) ++
      (if (e + 1) % 2 = 0 then [TrainEvent.saveCkpt (e + 1)] else [])) B
    (fun e k => nmtEpochLoop_fixed_rec B e k) (fun _ => rfl)
    (fun e x hx => ((nmt_body_save_mem e B x).mp hx).1)
    (fun e x pre tl hsp => nmt_body_save_split e B x pre tl hsp)
    (fun e => nmt_body_countP e B) k e x pre post h

theorem dcganTrain_save_mem (E B x : ℕ) :
    TrainEvent.saveCkpt x ∈ dcganTrain E B ↔
      (1 ≤ x ∧ x ≤ E ∧ x % 15 = 0) := by
  rw [dcganTrain, List.mem_append, dcgan_loop_save_mem]
  simp

theorem dcganTrain_save_position (E B x : ℕ) (pre post : List TrainEvent)
    (h : dcganTrain E B = pre ++ TrainEvent.saveCkpt x :: post) :
    pre.countP isBatch = x * B := by
  rw [dcganTrain] at h
  rcases List.append_eq_append_iff.mp h with ⟨a', ha1, ha2⟩ | ⟨c', hc1, hc2⟩
  · cases a' with
    | nil => simp at ha2
    | cons q qs =>
      have := congrArg List.length ha2
      simp at this
  · cases c' with
    | nil => simp at hc2
    | cons hd tl2 =>
      obtain ⟨h1, h2⟩ := List.cons.inj hc2
      rw [← h1] at hc1
      have := dcganTrainLoop_save_position B E 0 x pre tl2 hc1
      simpa using this

theorem nmt_broken_no_save (E B x : ℕ) :
    TrainEvent.saveCkpt x ∉ nmtTrainRun E (B + 1) := by
  cases E with
  | zero => simp [nmtTrainRun, nmtEpochLoop]
  | succ m =>
    rw [nmtTrainRun_raises m B]
    simp

/-- C9 counterexample: in the NMT training run with 2 epochs and 1 batch per
epoch, 1-based epoch 2 is a multiple of the save interval 2, yet no
checkpoint-save occurs: the run raises an arity TypeError on the first
batch. -/
theorem nmt_no_checkpoint_despite_even_epoch :
    2 % 2 = 0 ∧ TrainEvent.saveCkpt 2 ∉ nmtTrainRun 2 1 := by
  exact ⟨by decide, by decide⟩

/-- C9 (amended): in the DCGAN script a checkpoint is persisted exactly at
the end of the epochs whose 1-based number is a multiple of 15, and every
save event is preceded by exactly epoch·B completed batch steps, so none is
written mid-epoch or at another boundary.  In the NMT script as written no
checkpoint is ever persisted — every run with at least one batch raises
before reaching the save statement — while with the `train_step` call
repaired the checkpoint is persisted exactly at the end of the epochs whose
1-based number is a multiple of 2, again after exactly epoch·B batch
steps. -/
theorem checkpoint_every_interval :
    (∀ E B x : ℕ, TrainEvent.saveCkpt x ∈ dcganTrain E B ↔
      (1 ≤ x ∧ x ≤ E ∧ x % 15 = 0)) ∧
    (∀ (E B x : ℕ) (pre post : List TrainEvent),
      dcganTrain E B = pre ++ TrainEvent.saveCkpt x :: post →
      pre.countP isBatch = x * B) ∧
    (∀ E B x : ℕ, TrainEvent.saveCkpt x ∉ nmtTrainRun E (B + 1)) ∧
    (∀ E B x : ℕ, TrainEvent.saveCkpt x ∈ nmtTrainRunFixed E B ↔
      (1 ≤ x ∧ x ≤ E ∧ x % 2 = 0)) ∧
    (∀ (E B x : ℕ) (pre post : List TrainEvent),
      nmtTrainRunFixed E B = pre ++ TrainEvent.saveCkpt x :: post →
      pre.countP isBatch = x * B) := by
  refine ⟨dcganTrain_save_mem, dcganTrain_save_position, nmt_broken_no_save,
    ?_, ?_⟩
  · intro E B x
    rw [nmtTrainRunFixed, nmt_fixed_loop_save_mem]
    simp
  · intro E B x pre post h
    have := nmtFixed_loop_save_position B E 0 x pre post h
    simpa using this

/-- Witness for C9's amended theorem: the repaired NMT run with 2 epochs and
0 batches saves exactly one checkpoint, at the end of epoch 2, preceded by
2·0 batch steps. -/
theorem checkpoint_every_interval_witness :
    (nmtTrainRunFixed 2 0 =
      ([] : List TrainEvent) ++ TrainEvent.saveCkpt 2 :: []) ∧
    ([] : List TrainEvent).countP isBatch = 2 * 0 :=
  ⟨by decide, checkpoint_every_interval.2.2.2.2 2 0 2 [] [] (by decide)⟩

end TFExamples
